import Mathlib

/-!
# Verification of the qchat hybrid post-quantum envelope layer

Shallow embedding of `src/server/crypto.ts` and of the envelope-related
request handlers of `src/server/routes.ts`.

The repository's own code (`encryptData`, `decryptData`, `aesGcmEncrypt`,
`aesGcmDecrypt`, `getKeyFingerprint`, `encodeBase64`, `decodeBase64`, the
message routes) is translated directly from the source.  The cryptographic
primitives it calls live in external packages (`@noble/post-quantum`
ML-KEM-768, `@noble/ciphers` AES-256-GCM, `@noble/hashes` SHA-256, Node's
`Buffer` base64 codec) whose code is not part of the repository; those are
modelled from the specification as ideal executable functions, as documented
on each definition.  Byte strings are `List Nat`; honest byte strings have
all entries `< 256`.  The ideal models store unbounded natural numbers in
designated slots (the AEAD tag slot, the shared-secret slot) to model the
collision-freeness that the spec attributes to the real primitives.
-/

/-- A byte string.  Entries of honest byte strings are `< 256`. -/
abbrev Bytes := List Nat

/-- The spec's error taxonomy (spec section 7).  The source signals these as
`Error` values with distinguishing messages; the constructors here name the
spec's classification of each `throw` site. -/
inductive CryptoError where
  | malformedKey : CryptoError
  | invalidParameter : CryptoError
  | authenticationFailure : CryptoError
  | malformedEnvelope : CryptoError
deriving DecidableEq, Repr

instance {e a : Type} [DecidableEq e] [DecidableEq a] :
    DecidableEq (Except e a) := fun x y =>
  match x, y with
  | .ok u, .ok v =>
    if h : u = v then isTrue (by rw [h]) else isFalse (by simp [h])
  | .error u, .error v =>
    if h : u = v then isTrue (by rw [h]) else isFalse (by simp [h])
  | .ok _, .error _ => isFalse (by simp)
  | .error _, .ok _ => isFalse (by simp)

/-- `EncryptedData` from `src/server/crypto.ts`: the envelope triple. -/
structure EncryptedData where
  ciphertext : Bytes
  encapsulatedKey : Bytes
  nonce : Bytes
deriving DecidableEq, Repr

/-- Little-endian base-256 rendering of `n` into exactly `len` bytes
(truncates above `256 ^ len`).  Used by the ideal KEM model to lay values
out as fixed-length byte strings. -/
def natToBytes (n : Nat) : Nat → Bytes
  | 0 => []
  | len + 1 => n % 256 :: natToBytes (n / 256) len

/-- Little-endian base-256 value of a byte string (left inverse of
`natToBytes` on in-range values). -/
def leVal : Bytes → Nat
  | [] => 0
  | b :: t => leVal t * 256 + b

/-- Injective code of a byte string (base-256 digits under a leading 1):
distinct byte strings with entries `< 256` get distinct codes. -/
def encB : Bytes → Nat
  | [] => 1
  | b :: t => encB t * 256 + b

/-- Modelled from the spec: ML-KEM-768 key generation
(`ml_kem768.keygen(seed)` from `@noble/post-quantum`, not in src/).
Derives a 1184-byte public key and a 2400-byte secret key deterministically
from the 64-byte seed (spec section 4.1); in the ideal model both are the
base-256 rendering of the seed value, so that a secret key determines the
matching public key, as the FO decapsulation test requires. -/
def kemKeygen (seed : Nat) : Bytes × Bytes :=
  (natToBytes seed 1184, natToBytes seed 2400)

/-- Ideal shared secret established between public key `pk` and
encapsulation randomness `r`: 32 byte slots, slot 0 holding an injective
code of `(pk, r)` tagged `0` (honest encapsulation). -/
def mkSS (pk : Bytes) (r : Nat) : Bytes :=
  Nat.pair 0 (Nat.pair (encB pk) r) :: List.replicate 31 0

/-- Ideal implicit-rejection secret for decapsulating ciphertext `ct` with
secret key `sk` when the FO re-encryption test fails: deterministic in
`(sk, ct)`, tagged `1` so it never collides with an honest secret. -/
def mkReject (sk ct : Bytes) : Bytes :=
  Nat.pair 1 (Nat.pair (encB sk) (encB ct)) :: List.replicate 31 0

/-- Modelled from the spec: ML-KEM-768 encapsulation
(`ml_kem768.encapsulate(publicKey, seed)`, not in src/).  Validates the
public-key length against the parameter set (1184 bytes; reject otherwise —
malformed-key error, spec section 4.1), then produces the 32-byte shared
secret and a 1088-byte KEM ciphertext.  The ideal ciphertext lays out the
32-byte randomness followed by a 1056-byte rendering of the public key's
value, which is what the decapsulation re-encryption test recomputes. -/
def kemEncaps (pk : Bytes) (r : Nat) : Except CryptoError (Bytes × Bytes) :=
  if pk.length ≠ 1184 then .error .malformedKey
  else .ok (mkSS pk r, natToBytes r 32 ++ natToBytes (leVal pk) 1056)

/-- Modelled from the spec: ML-KEM-768 decapsulation
(`ml_kem768.decapsulate(cipherText, secretKey)`, called by `decapsulate` in
`src/server/crypto.ts`; library body not in src/).  Validates both lengths
(malformed-key error), then performs the Fujisaki-Okamoto re-encryption
test: recover the randomness from the ciphertext, re-encapsulate against
the public key determined by the secret key, and compare; on match return
the honest shared secret, otherwise return the deterministic
implicit-rejection secret — never an explicit error (spec section 4.1). -/
def decapsulate (ct sk : Bytes) : Except CryptoError Bytes :=
  if ct.length ≠ 1088 then .error .malformedKey
  else if sk.length ≠ 2400 then .error .malformedKey
  else
    let pk := natToBytes (leVal sk) 1184
    let r := leVal (ct.take 32)
    if ct = natToBytes r 32 ++ natToBytes (leVal pk) 1056 then .ok (mkSS pk r)
    else .ok (mkReject sk ct)

/-- Modelled from the spec: SHA-256 as used for key derivation
(`sha256(sharedSecret)` in `encryptData`/`decryptData`; library body not in
src/).  An ideal collision-free 32-slot digest: slot 0 carries an injective
code of the input (tagged `3`), the rest are zero.  Injective on the
32-slot shared secrets it is applied to, modelling collision resistance. -/
def sha256Ideal (l : Bytes) : Bytes :=
  Nat.pair 3 (List.foldr Nat.pair 0 l) :: List.replicate 31 0

/-- `MAX_DATA_SIZE` from `aesGcmEncrypt` in `src/server/crypto.ts`:
10 MiB. -/
def MAX_DATA_SIZE : Nat := 10 * 1024 * 1024

/-- Modelled from the spec: the AES-CTR-style keystream byte at position
`i` under `key` and `nonce` (the confidentiality half of AES-256-GCM, not
in src/).  Any fixed function of `(key, nonce, i)` with byte range models
it; XOR-masking with it is an involution, which is all the claims use. -/
def ksByte (key nonce : Bytes) (i : Nat) : Nat :=
  (key.headD 0 + leVal nonce + i) % 256

/-- XOR-mask a byte string with the keystream starting at position `i`. -/
def maskFrom (key nonce : Bytes) (i : Nat) : Bytes → Bytes
  | [] => []
  | b :: t => (b ^^^ ksByte key nonce i) :: maskFrom key nonce (i + 1) t

/-- Modelled from the spec: the 128-bit GCM authentication tag over
`(key, nonce, plaintext)` (not in src/), as 16 byte slots whose first slot
holds an injective code of the triple (tagged `2`).  The unbounded slot
models the spec's idealization that the tag never verifies on any input
other than the authentic one. -/
def tagBytes (key nonce p : Bytes) : Bytes :=
  Nat.pair 2 (Nat.pair (key.headD 0) (Nat.pair (encB nonce) (encB p))) ::
    List.replicate 15 0

/-- `aesGcmEncrypt` from `src/server/crypto.ts` (lines 72-96): validates
the 10 MiB size ceiling, the 32-byte key and the 12-byte nonce in that
order (each `throw` is an `InvalidParameterError` per spec section 7),
then seals with the ideal AEAD: masked plaintext followed by the tag. -/
def aesGcmEncrypt (data key nonce : Bytes) : Except CryptoError Bytes :=
  if data.length > MAX_DATA_SIZE then .error .invalidParameter
  else if key.length ≠ 32 then .error .invalidParameter
  else if nonce.length ≠ 12 then .error .invalidParameter
  else .ok (maskFrom key nonce 0 data ++ tagBytes key nonce data)

/-- `aesGcmDecrypt` from `src/server/crypto.ts` (lines 101-125): validates
the 32-byte key and 12-byte nonce (`InvalidParameterError`), then opens
with the ideal AEAD: split off the 16-slot tag, unmask the body, recompute
the tag and compare; any mismatch (including a too-short ciphertext) is the
`AuthenticationFailure` thrown by the source's catch block. -/
def aesGcmDecrypt (ct key nonce : Bytes) : Except CryptoError Bytes :=
  if key.length ≠ 32 then .error .invalidParameter
  else if nonce.length ≠ 12 then .error .invalidParameter
  else
    let body := ct.take (ct.length - 16)
    let p := maskFrom key nonce 0 body
    if ct.drop (ct.length - 16) = tagBytes key nonce p ∧ 16 ≤ ct.length
    then .ok p
    else .error .authenticationFailure

/-- `encryptData` from `src/server/crypto.ts` (lines 141-160).  The
randomness the source draws from the CSPRNG — the 32-byte encapsulation
seed (`randomBytes(32)` inside `encapsulate`) and the 12-byte nonce
(`randomBytes(12)`) — is passed explicitly as `r` and `nonce`. -/
def encryptData (data pk : Bytes) (r : Nat) (nonce : Bytes) :
    Except CryptoError EncryptedData :=
  match kemEncaps pk r with
  | .error e => .error e
  | .ok (ss, ek) =>
    match aesGcmEncrypt data (sha256Ideal ss) nonce with
    | .error e => .error e
    | .ok ct => .ok ⟨ct, ek, nonce⟩

/-- `decryptData` from `src/server/crypto.ts` (lines 175-184):
decapsulate, derive the key with SHA-256, open with AES-256-GCM. -/
def decryptData (enc : EncryptedData) (sk : Bytes) :
    Except CryptoError Bytes :=
  match decapsulate enc.encapsulatedKey sk with
  | .error e => .error e
  | .ok ss => aesGcmDecrypt enc.ciphertext (sha256Ideal ss) enc.nonce

/-- Flip bit `j` of the byte at position `i` (tamper model for claim C2). -/
def flipBit (l : Bytes) (i j : Nat) : Bytes :=
  l.set i (l.getD i 0 ^^^ 2 ^ j)

/-- The sixteen lowercase hexadecimal digit characters. -/
def hexDigitChar (n : Nat) : Char :=
  "0123456789abcdef".toList.getD n 'x'

/-- Modelled from the spec: JS `Number.prototype.toString(16)` (not in
src/), on the byte range `b < 256` that `getKeyFingerprint` feeds it —
minimal-length lowercase hexadecimal. -/
def byteToHexMin (b : Nat) : List Char :=
  if b < 16 then [hexDigitChar b]
  else [hexDigitChar (b / 16), hexDigitChar (b % 16)]

/-- JS `String.prototype.padStart(2, '0')`: left-pad to two characters. -/
def padStart2 (l : List Char) : List Char :=
  List.replicate (2 - l.length) '0' ++ l

/-- The regex split `hex.match(/.{1,4}/g)` from `getKeyFingerprint`:
successive chunks of four characters, a shorter final chunk kept. -/
def chunk4 : List Char → List (List Char)
  | [] => []
  | a :: b :: c :: d :: t => [a, b, c, d] :: chunk4 t
  | l => [l]

/-- JS `Array.prototype.join(' ')` over character chunks. -/
def joinSpace : List (List Char) → List Char
  | [] => []
  | [x] => x
  | x :: xs => x ++ ' ' :: joinSpace xs

/-- Modelled from the spec: SHA-256 as consumed by the fingerprint path
(`sha256(publicKey)` in `getKeyFingerprint`; library body not in src/) at
the byte level: a deterministic 32-raw-byte digest of the input.  The
fingerprint claims concern determinism and formatting of the 32-byte
digest, so any fixed byte-valued digest function models it. -/
def sha256BytesModel (l : Bytes) : Bytes :=
  natToBytes (encB l) 32

/-- `getKeyFingerprint` from `src/server/crypto.ts` (lines 189-198):
hash, take the first 16 bytes, two lowercase hex digits per byte
(`toString(16).padStart(2, '0')`, joined), then the `/.{1,4}/g` regex
grouping joined with single spaces (`''` when the match is null). -/
def getKeyFingerprint (pk : Bytes) : String :=
  ⟨joinSpace (chunk4
    ((((sha256BytesModel pk).take 16).map
      (fun b => padStart2 (byteToHexMin b))).flatten))⟩

/-- The fingerprint as spec section 4.5 words it: hash the public key,
truncate to the 16-byte prefix, render each byte as two lowercase hex
digits, and group into 4-character blocks separated by spaces. -/
def fingerprintSpec (pk : Bytes) : String :=
  ⟨joinSpace (chunk4
    ((((sha256BytesModel pk).take 16).map
      (fun b => [hexDigitChar (b / 16), hexDigitChar (b % 16)])).flatten))⟩

/-- The base64 alphabet, in value order. -/
def base64Alphabet : List Char :=
  "ABCDEFGHIJKLMNOPQRSTUVWXYZabcdefghijklmnopqrstuvwxyz0123456789+/".toList

/-- Character of a sextet value. -/
def b64Char (n : Nat) : Char :=
  base64Alphabet.getD n 'A'

/-- Membership in the base64 alphabet (padding `'='` is not a member). -/
def isB64Char (c : Char) : Bool :=
  base64Alphabet.contains c

/-- Sextet value of an alphabet character. -/
def b64Val (c : Char) : Nat :=
  base64Alphabet.indexOf c

/-- RFC 4648 base64 of a byte string, three bytes to four characters,
`'='`-padded. -/
def encodeBase64Chars : Bytes → List Char
  | [] => []
  | [a] => [b64Char (a / 4), b64Char (a % 4 * 16), '=', '=']
  | [a, b] => [b64Char (a / 4), b64Char (a % 4 * 16 + b / 16),
               b64Char (b % 16 * 4), '=']
  | a :: b :: c :: t =>
    b64Char (a / 4) :: b64Char (a % 4 * 16 + b / 16) ::
      b64Char (b % 16 * 4 + c / 64) :: b64Char (c % 64) ::
      encodeBase64Chars t

/-- `encodeBase64` from `src/server/crypto.ts` (line 203):
`Buffer.from(data).toString('base64')`.  Modelled from the spec /
Node's documented codec (not in src/): standard padded base64. -/
def encodeBase64 (data : Bytes) : String :=
  ⟨encodeBase64Chars data⟩

/-- Regroup a sextet stream into bytes, four sextets to three bytes, a
trailing group of two or three sextets contributing its complete bytes. -/
def decodeSextets : List Nat → Bytes
  | v1 :: v2 :: v3 :: v4 :: t =>
    (v1 * 4 + v2 / 16) :: (v2 % 16 * 16 + v3 / 4) :: (v3 % 4 * 64 + v4) ::
      decodeSextets t
  | [v1, v2] => [v1 * 4 + v2 / 16]
  | [v1, v2, v3] => [v1 * 4 + v2 / 16, v2 % 16 * 16 + v3 / 4]
  | _ => []

/-- `decodeBase64` from `src/server/crypto.ts` (line 210):
`new Uint8Array(Buffer.from(data, 'base64'))`.  Modelled from Node's
documented codec (not in src/): a lenient, total decoder — characters
outside the alphabet (including `'='`) are skipped, and the surviving
sextets are regrouped into bytes.  It never throws. -/
def decodeBase64 (s : String) : Bytes :=
  decodeSextets ((s.toList.filter (fun c => isB64Char c)).map b64Val)

/-- A stored message row as the decrypt endpoint reads it: the three
base64-encoded envelope fields (schema `messages` table). -/
structure StoredMessage where
  encryptedContent : String
  encapsulatedKey : String
  nonce : String

/-- The failure modes of the decrypt endpoint: the explicit 400
`Secret key required` response (routes.ts lines 693-695), or an error
thrown by the decrypt pipeline and caught by the handler's try/catch
(mapped to a generic 500; the underlying `CryptoError` of the failing
step is carried here). -/
inductive RouteError where
  | secretKeyRequired : RouteError
  | decryptFailed : CryptoError → RouteError
deriving DecidableEq, Repr

/-- The decrypt endpoint `POST /api/messages/:id/decrypt` from
`src/server/routes.ts` (lines 689-722): first the `if (!secretKey)` guard
(lines 693-695) rejects a missing secret key with a 400 before anything is
decoded — for a string-typed body field the JS falsy test is the empty
string; then the three stored fields and the secret key are
base64-decoded and passed to `decryptData`. -/
def decryptMessageRoute (msg : StoredMessage) (secretKeyB64 : String) :
    Except RouteError Bytes :=
  if secretKeyB64 = "" then .error .secretKeyRequired
  else
    match decryptData
      ⟨decodeBase64 msg.encryptedContent,
       decodeBase64 msg.encapsulatedKey,
       decodeBase64 msg.nonce⟩
      (decodeBase64 secretKeyB64) with
    | .error e => .error (.decryptFailed e)
    | .ok p => .ok p

/-- One row the room branch of `POST /api/messages` pushes onto
`messagesToCreate`: its recipient (`none` for the sender's self-addressed
copy) and its envelope. -/
structure RoomMsgRec where
  recipientId : Option String
  env : Except CryptoError EncryptedData

/-- The body of the member loop of the room branch of `POST /api/messages`
(routes.ts lines 619-638): skip the sender, skip a member whose user
record has no public key (the `missingPublicKeys` warning path — the
schema's `public_key` column is nullable), otherwise encrypt the content
for that member.  `pubKeyOf` is the user store's decoded public key
column; `rand` supplies the CSPRNG draws (encapsulation seed and nonce)
of each `encryptData` call, keyed by recipient. -/
def roomMemberRec (senderId : String) (pubKeyOf : String → Option Bytes)
    (content : Bytes) (rand : Option String → Nat × Bytes) (m : String) :
    Option RoomMsgRec :=
  if m = senderId then none
  else
    match pubKeyOf m with
    | some k =>
      some { recipientId := some m,
             env := encryptData content k (rand (some m)).1
               (rand (some m)).2 }
    | none => none

/-- The room branch of `POST /api/messages` from `src/server/routes.ts`
(lines 583-650): reject an empty member list and a sender without a public
key (the 400 paths, `none` here); otherwise push the sender's
self-addressed envelope, then iterate the member loop `roomMemberRec` over
all members. -/
def roomMessagesToCreate (senderId : String) (members : List String)
    (pubKeyOf : String → Option Bytes) (content : Bytes)
    (rand : Option String → Nat × Bytes) : Option (List RoomMsgRec) :=
  if members.isEmpty then none
  else
    match pubKeyOf senderId with
    | none => none
    | some spk =>
      some ({ recipientId := none,
              env := encryptData content spk (rand none).1 (rand none).2 } ::
        members.filterMap (roomMemberRec senderId pubKeyOf content rand))

/-! ## Infrastructure lemmas -/

theorem natToBytes_length (n len : Nat) : (natToBytes n len).length = len := by
  induction len generalizing n with
  | zero => rfl
  | succ k ih => simp [natToBytes, ih]

theorem natToBytes_lt (n len : Nat) : ∀ x ∈ natToBytes n len, x < 256 := by
  induction len generalizing n with
  | zero => simp [natToBytes]
  | succ k ih =>
    simp only [natToBytes, List.mem_cons]
    rintro x (rfl | hx)
    · exact Nat.mod_lt _ (by norm_num)
    · exact ih _ x hx

theorem leVal_natToBytes (n len : Nat) (h : n < 256 ^ len) :
    leVal (natToBytes n len) = n := by
  induction len generalizing n with
  | zero =>
    simp only [pow_zero, Nat.lt_one_iff] at h
    simp [natToBytes, leVal, h]
  | succ k ih =>
    have hd : n / 256 < 256 ^ k := by
      rw [Nat.div_lt_iff_lt_mul (by norm_num)]
      calc n < 256 ^ (k + 1) := h
        _ = 256 ^ k * 256 := by ring
    simp only [natToBytes, leVal, ih _ hd]
    omega

theorem natToBytes_leVal (l : Bytes) (h : ∀ x ∈ l, x < 256) :
    natToBytes (leVal l) l.length = l := by
  induction l with
  | nil => rfl
  | cons b t ih =>
    have hb : b < 256 := h b (by simp)
    have h1 : (leVal t * 256 + b) % 256 = b := by omega
    have h2 : (leVal t * 256 + b) / 256 = leVal t := by omega
    simp only [leVal, List.length_cons, natToBytes, h1, h2]
    rw [ih (fun x hx => h x (List.mem_cons_of_mem _ hx))]

theorem leVal_inj (l1 l2 : Bytes) (h1 : ∀ x ∈ l1, x < 256)
    (h2 : ∀ x ∈ l2, x < 256) (hlen : l1.length = l2.length)
    (he : leVal l1 = leVal l2) : l1 = l2 := by
  have := natToBytes_leVal l1 h1
  rw [he, hlen, natToBytes_leVal l2 h2] at this
  exact this.symm

theorem encB_pos (l : Bytes) : 1 ≤ encB l := by
  cases l with
  | nil => exact le_refl 1
  | cons b t =>
    have := encB_pos t
    simp only [encB]
    omega

theorem encB_inj (l1 : Bytes) : ∀ l2 : Bytes, (∀ x ∈ l1, x < 256) →
    (∀ x ∈ l2, x < 256) → encB l1 = encB l2 → l1 = l2 := by
  induction l1 with
  | nil =>
    intro l2 _ h2 he
    cases l2 with
    | nil => rfl
    | cons b t =>
      exfalso
      have := encB_pos t
      simp only [encB] at he
      omega
  | cons b t ih =>
    intro l2 h1 h2 he
    cases l2 with
    | nil =>
      exfalso
      have := encB_pos t
      simp only [encB] at he
      omega
    | cons b2 t2 =>
      have hb : b < 256 := h1 b (by simp)
      have hb2 : b2 < 256 := h2 b2 (by simp)
      simp only [encB] at he
      have hbe : b = b2 := by omega
      have hte : encB t = encB t2 := by omega
      rw [hbe, ih t2 (fun x hx => h1 x (List.mem_cons_of_mem _ hx))
        (fun x hx => h2 x (List.mem_cons_of_mem _ hx)) hte]

theorem maskFrom_length (key nonce : Bytes) (i : Nat) (l : Bytes) :
    (maskFrom key nonce i l).length = l.length := by
  induction l generalizing i with
  | nil => rfl
  | cons b t ih => simp [maskFrom, ih]

theorem maskFrom_maskFrom (key nonce : Bytes) (i : Nat) (l : Bytes) :
    maskFrom key nonce i (maskFrom key nonce i l) = l := by
  induction l generalizing i with
  | nil => rfl
  | cons b t ih =>
    simp only [maskFrom, ih]
    rw [Nat.xor_cancel_right]

theorem maskFrom_set (key nonce : Bytes) (i j : Nat) (v : Nat) (l : Bytes) :
    maskFrom key nonce i (l.set j v) =
    (maskFrom key nonce i l).set j (v ^^^ ksByte key nonce (i + j)) := by
  induction l generalizing i j with
  | nil => rfl
  | cons b t ih =>
    cases j with
    | zero => simp [maskFrom, List.set]
    | succ k =>
      simp only [List.set, maskFrom, ih (i + 1) k]
      have : i + 1 + k = i + (k + 1) := by omega
      rw [this]

theorem maskFrom_getD (key nonce : Bytes) (l : Bytes) (i j : Nat)
    (h : j < l.length) :
    (maskFrom key nonce i l).getD j 0 =
    l.getD j 0 ^^^ ksByte key nonce (i + j) := by
  induction l generalizing i j with
  | nil => simp at h
  | cons b t ih =>
    cases j with
    | zero => simp [maskFrom]
    | succ k =>
      simp only [List.length_cons, Nat.succ_lt_succ_iff] at h
      simp only [maskFrom, List.getD_cons_succ, ih (i + 1) k h]
      have : i + 1 + k = i + (k + 1) := by omega
      rw [this]

theorem sha256Ideal_length (l : Bytes) : (sha256Ideal l).length = 32 := by
  simp [sha256Ideal]

theorem sha256Ideal_headD (w : Nat) :
    (sha256Ideal (w :: List.replicate 31 0)).headD 0 =
    Nat.pair 3 (Nat.pair w 0) := rfl

theorem mkSS_headD (pk : Bytes) (r : Nat) :
    (mkSS pk r).headD 0 = Nat.pair 0 (Nat.pair (encB pk) r) := rfl

theorem key_ne_of_ss_headD_ne (s1 s2 : Nat) (h : s1 ≠ s2) :
    (sha256Ideal (s1 :: List.replicate 31 0)).headD 0 ≠
    (sha256Ideal (s2 :: List.replicate 31 0)).headD 0 := by
  simp only [sha256Ideal_headD, ne_eq, Nat.pair_eq_pair]
  intro hc
  exact h hc.2.1

theorem tagBytes_length (key nonce p : Bytes) :
    (tagBytes key nonce p).length = 16 := by
  simp [tagBytes]

theorem sealed_length (key nonce data : Bytes) :
    (maskFrom key nonce 0 data ++ tagBytes key nonce data).length =
    data.length + 16 := by
  simp [maskFrom_length, tagBytes_length]

theorem aesGcmEncrypt_ok (data key nonce : Bytes)
    (hd : data.length ≤ MAX_DATA_SIZE) (hk : key.length = 32)
    (hn : nonce.length = 12) :
    aesGcmEncrypt data key nonce =
    .ok (maskFrom key nonce 0 data ++ tagBytes key nonce data) := by
  simp [aesGcmEncrypt, hk, hn, Nat.not_lt.mpr hd]

theorem sealed_take (key nonce data : Bytes) :
    (maskFrom key nonce 0 data ++ tagBytes key nonce data).take
      ((maskFrom key nonce 0 data ++ tagBytes key nonce data).length - 16) =
    maskFrom key nonce 0 data := by
  rw [sealed_length]
  have h : data.length + 16 - 16 = (maskFrom key nonce 0 data).length := by
    rw [maskFrom_length]; omega
  rw [h, List.take_left]

theorem sealed_drop (key nonce data : Bytes) :
    (maskFrom key nonce 0 data ++ tagBytes key nonce data).drop
      ((maskFrom key nonce 0 data ++ tagBytes key nonce data).length - 16) =
    tagBytes key nonce data := by
  rw [sealed_length]
  have h : data.length + 16 - 16 = (maskFrom key nonce 0 data).length := by
    rw [maskFrom_length]; omega
  rw [h, List.drop_left]

theorem aesGcmDecrypt_seal (data key nonce : Bytes) (hk : key.length = 32)
    (hn : nonce.length = 12) :
    aesGcmDecrypt (maskFrom key nonce 0 data ++ tagBytes key nonce data)
      key nonce = .ok data := by
  simp only [aesGcmDecrypt, hk, hn]
  rw [if_neg (by simp), if_neg (by simp)]
  simp only [sealed_take, sealed_drop, maskFrom_maskFrom]
  rw [if_pos ⟨trivial, by rw [sealed_length]; omega⟩]

theorem aesGcmDecrypt_tag_mismatch (data key nonce key2 nonce2 : Bytes)
    (hk2 : key2.length = 32) (hn2 : nonce2.length = 12)
    (hne : key2.headD 0 ≠ key.headD 0 ∨ encB nonce2 ≠ encB nonce) :
    aesGcmDecrypt (maskFrom key nonce 0 data ++ tagBytes key nonce data)
      key2 nonce2 = .error .authenticationFailure := by
  simp only [aesGcmDecrypt, hk2, hn2]
  rw [if_neg (by simp), if_neg (by simp)]
  simp only [sealed_take, sealed_drop]
  rw [if_neg]
  intro hc
  have hhead := congrArg (fun l : Bytes => l.headD 0) hc.1
  simp only [tagBytes, List.headD_cons] at hhead
  obtain ⟨-, h2⟩ := Nat.pair_eq_pair.mp hhead
  obtain ⟨hkh, h3⟩ := Nat.pair_eq_pair.mp h2
  obtain ⟨hnn, -⟩ := Nat.pair_eq_pair.mp h3
  rcases hne with hne | hne
  · exact hne hkh.symm
  · exact hne hnn.symm

theorem pow256_eq (k : Nat) : (256 : Nat) ^ k = 2 ^ (8 * k) := by
  rw [show (256 : Nat) = 2 ^ 8 by norm_num, ← pow_mul]

theorem lt_pow256_of_lt_2pow (n e k : Nat) (h : n < 2 ^ e) (he : e ≤ 8 * k) :
    n < 256 ^ k := by
  rw [pow256_eq]
  exact lt_of_lt_of_le h (Nat.pow_le_pow_right (by norm_num) he)


theorem kemEncaps_ok (pk : Bytes) (r : Nat) (h : pk.length = 1184) :
    kemEncaps pk r =
    .ok (mkSS pk r, natToBytes r 32 ++ natToBytes (leVal pk) 1056) := by
  simp [kemEncaps, h]

theorem decapsulate_eq (ct sk : Bytes) (h1 : ct.length = 1088)
    (h2 : sk.length = 2400) :
    decapsulate ct sk =
    (if ct = natToBytes (leVal (ct.take 32)) 32 ++
        natToBytes (leVal (natToBytes (leVal sk) 1184)) 1056
     then .ok (mkSS (natToBytes (leVal sk) 1184) (leVal (ct.take 32)))
     else .ok (mkReject sk ct)) := by
  simp [decapsulate, h1, h2]

theorem take32_append (r : Nat) (l : Bytes) :
    (natToBytes r 32 ++ l).take 32 = natToBytes r 32 := by
  have h := List.take_left (natToBytes r 32) l
  rwa [natToBytes_length] at h

theorem decapsulate_honest (seed r : Nat) (hs : seed < 2 ^ 512)
    (hr : r < 2 ^ 256) :
    decapsulate (natToBytes r 32 ++ natToBytes seed 1056)
      (natToBytes seed 2400) = .ok (mkSS (natToBytes seed 1184) r) := by
  rw [decapsulate_eq _ _ (by simp [natToBytes_length]) (natToBytes_length _ _),
    take32_append,
    leVal_natToBytes r 32 (lt_pow256_of_lt_2pow _ 256 _ hr (by norm_num)),
    leVal_natToBytes seed 2400 (lt_pow256_of_lt_2pow _ 512 _ hs (by norm_num)),
    leVal_natToBytes seed 1184 (lt_pow256_of_lt_2pow _ 512 _ hs (by norm_num)),
    if_pos rfl]

theorem decapsulate_wrong (seedA seedB r : Nat) (hsa : seedA < 2 ^ 512)
    (hsb : seedB < 2 ^ 512) (hne : seedA ≠ seedB) (hr : r < 2 ^ 256) :
    decapsulate (natToBytes r 32 ++ natToBytes seedB 1056)
      (natToBytes seedA 2400) =
    .ok (mkReject (natToBytes seedA 2400)
      (natToBytes r 32 ++ natToBytes seedB 1056)) := by
  rw [decapsulate_eq _ _ (by simp [natToBytes_length]) (natToBytes_length _ _),
    take32_append,
    leVal_natToBytes r 32 (lt_pow256_of_lt_2pow _ 256 _ hr (by norm_num)),
    leVal_natToBytes seedA 2400
      (lt_pow256_of_lt_2pow _ 512 _ hsa (by norm_num)),
    leVal_natToBytes seedA 1184
      (lt_pow256_of_lt_2pow _ 512 _ hsa (by norm_num)),
    if_neg]
  intro hc
  have htail := (List.append_inj hc
    (by simp [natToBytes_length])).2
  have hv := congrArg leVal htail
  rw [leVal_natToBytes seedB 1056
      (lt_pow256_of_lt_2pow _ 512 _ hsb (by norm_num)),
    leVal_natToBytes seedA 1056
      (lt_pow256_of_lt_2pow _ 512 _ hsa (by norm_num))] at hv
  exact hne hv.symm

theorem encryptData_ok (p pk : Bytes) (r : Nat) (nonce : Bytes)
    (hpk : pk.length = 1184) (hp : p.length ≤ MAX_DATA_SIZE)
    (hn : nonce.length = 12) :
    encryptData p pk r nonce =
    .ok ⟨maskFrom (sha256Ideal (mkSS pk r)) nonce 0 p ++
          tagBytes (sha256Ideal (mkSS pk r)) nonce p,
         natToBytes r 32 ++ natToBytes (leVal pk) 1056, nonce⟩ := by
  unfold encryptData
  rw [kemEncaps_ok pk r hpk]
  dsimp only
  rw [aesGcmEncrypt_ok p _ nonce hp (sha256Ideal_length _) hn]

/-- C1: for every plaintext `p` of length 0 bytes up to 10 MiB, every
keypair produced by `generateKeyPair` (any 64-byte keygen seed), and every
choice of the randomness consumed (the 32-byte encapsulation seed `r` and
the 12-byte nonce), `decryptData (encryptData p pk) sk` returns exactly
`p`. -/
theorem C1_roundtrip (p : Bytes) (seed r : Nat) (nonce : Bytes)
    (hp : p.length ≤ MAX_DATA_SIZE) (hs : seed < 2 ^ 512)
    (hr : r < 2 ^ 256) (hn : nonce.length = 12) :
    ∃ env, encryptData p (kemKeygen seed).1 r nonce = .ok env ∧
      decryptData env (kemKeygen seed).2 = .ok p := by
  have hpk : leVal (natToBytes seed 1184) = seed :=
    leVal_natToBytes seed 1184 (lt_pow256_of_lt_2pow _ 512 _ hs (by norm_num))
  refine ⟨_, encryptData_ok p _ r nonce (natToBytes_length _ _) hp hn, ?_⟩
  unfold decryptData
  dsimp only [kemKeygen]
  rw [hpk, decapsulate_honest seed r hs hr]
  exact aesGcmDecrypt_seal p _ nonce (sha256Ideal_length _) hn

/-- Witness for C1 at a concrete plaintext, keypair seed, encapsulation
seed and nonce. -/
theorem C1_roundtrip_witness :
    ∃ env, encryptData [104, 105] (kemKeygen 3).1 5 (List.replicate 12 0) =
        .ok env ∧
      decryptData env (kemKeygen 3).2 = .ok [104, 105] :=
  C1_roundtrip [104, 105] 3 5 (List.replicate 12 0)
    (by norm_num [MAX_DATA_SIZE]) (by norm_num) (by norm_num) (by simp)

/-- C5: for every valid recipient public key, `encryptData` succeeds on a
plaintext of exactly 10 MiB and fails with an `InvalidParameterError` on a
plaintext of exactly 10 MiB + 1 bytes; the size test is the first check of
`aesGcmEncrypt`, before any cipher work. -/
theorem C5_size_ceiling (pk data big nonce : Bytes) (r : Nat)
    (hpk : pk.length = 1184) (hn : nonce.length = 12)
    (hd : data.length = 10 * 1024 * 1024)
    (hbig : big.length = 10 * 1024 * 1024 + 1) :
    (encryptData data pk r nonce).isOk = true ∧
    encryptData big pk r nonce = .error .invalidParameter := by
  constructor
  · rw [encryptData_ok data pk r nonce hpk (by rw [hd]; rfl) hn]
    rfl
  · unfold encryptData
    rw [kemEncaps_ok pk r hpk]
    dsimp only
    unfold aesGcmEncrypt
    rw [if_pos (by rw [hbig]; norm_num [MAX_DATA_SIZE])]

/-- Witness for C5 at a keypair from seed 0, zero randomness, and all-zero
plaintexts of the two boundary lengths. -/
theorem C5_size_ceiling_witness :
    (encryptData (List.replicate (10 * 1024 * 1024) 0) (kemKeygen 0).1 0
      (List.replicate 12 0)).isOk = true ∧
    encryptData (List.replicate (10 * 1024 * 1024 + 1) 0) (kemKeygen 0).1 0
      (List.replicate 12 0) = .error .invalidParameter :=
  C5_size_ceiling (kemKeygen 0).1 _ _ (List.replicate 12 0) 0
    (natToBytes_length 0 1184) (List.length_replicate 12 0)
    (List.length_replicate _ 0) (List.length_replicate _ 0)

/-- C6: `encryptData`/`decryptData` reject wrong-length keys and nonces
rather than silently truncating or padding: encapsulation rejects a
recipient public key that is not 1184 bytes (ML-KEM-768) with a
`MalformedKeyError` (and `encryptData` propagates it), and the
authenticated cipher requires exactly a 32-byte key and a 12-byte nonce on
both the seal and open paths, failing with an `InvalidParameterError`
otherwise. -/
theorem C6_length_validation :
    (∀ (pk : Bytes) (r : Nat), pk.length ≠ 1184 →
      kemEncaps pk r = .error .malformedKey) ∧
    (∀ (data pk : Bytes) (r : Nat) (nonce : Bytes), pk.length ≠ 1184 →
      encryptData data pk r nonce = .error .malformedKey) ∧
    (∀ data key nonce : Bytes, data.length ≤ MAX_DATA_SIZE →
      key.length ≠ 32 →
      aesGcmEncrypt data key nonce = .error .invalidParameter) ∧
    (∀ data key nonce : Bytes, data.length ≤ MAX_DATA_SIZE →
      key.length = 32 → nonce.length ≠ 12 →
      aesGcmEncrypt data key nonce = .error .invalidParameter) ∧
    (∀ ct key nonce : Bytes, key.length ≠ 32 →
      aesGcmDecrypt ct key nonce = .error .invalidParameter) ∧
    (∀ ct key nonce : Bytes, key.length = 32 → nonce.length ≠ 12 →
      aesGcmDecrypt ct key nonce = .error .invalidParameter) := by
  refine ⟨?_, ?_, ?_, ?_, ?_, ?_⟩
  · intro pk r h
    simp [kemEncaps, h]
  · intro data pk r nonce h
    unfold encryptData
    rw [show kemEncaps pk r = .error .malformedKey by simp [kemEncaps, h]]
  · intro data key nonce hd hk
    simp [aesGcmEncrypt, Nat.not_lt.mpr hd, hk]
  · intro data key nonce hd hk hn
    simp [aesGcmEncrypt, Nat.not_lt.mpr hd, hk, hn]
  · intro ct key nonce hk
    simp [aesGcmDecrypt, hk]
  · intro ct key nonce hk hn
    simp [aesGcmDecrypt, hk, hn]

/-- Witness for C6: a 0-byte public key, a 3-byte cipher key and a 3-byte
nonce are all rejected. -/
theorem C6_length_validation_witness :
    encryptData [1] [] 0 (List.replicate 12 0) = .error .malformedKey ∧
    aesGcmEncrypt [1] [0, 0, 0] (List.replicate 12 0) =
      .error .invalidParameter ∧
    aesGcmDecrypt [1] (List.replicate 32 0) [0, 0, 0] =
      .error .invalidParameter :=
  ⟨C6_length_validation.2.1 [1] [] 0 (List.replicate 12 0) (by simp),
   C6_length_validation.2.2.1 [1] [0, 0, 0] (List.replicate 12 0)
     (by simp [MAX_DATA_SIZE]) (by simp),
   C6_length_validation.2.2.2.2.2 [1] (List.replicate 32 0) [0, 0, 0]
     (by simp) (by simp)⟩

theorem mkReject_headD_ne_mkSS (sk ct pk : Bytes) (r : Nat) :
    Nat.pair 1 (Nat.pair (encB sk) (encB ct)) ≠
    Nat.pair 0 (Nat.pair (encB pk) r) := by
  simp [Nat.pair_eq_pair]

/-- C3: for any two distinct keypairs `Ka` and `Kb` produced by
`generateKeyPair` (distinct 64-byte seeds) and every plaintext,
`decryptData (encryptData p Kb.publicKey) Ka.secretKey` fails with an
`AuthenticationFailure` rather than returning any plaintext. -/
theorem C3_wrong_key (p : Bytes) (seedA seedB r : Nat) (nonce : Bytes)
    (hp : p.length ≤ MAX_DATA_SIZE) (hsa : seedA < 2 ^ 512)
    (hsb : seedB < 2 ^ 512) (hne : seedA ≠ seedB) (hr : r < 2 ^ 256)
    (hn : nonce.length = 12) :
    ∃ env, encryptData p (kemKeygen seedB).1 r nonce = .ok env ∧
      decryptData env (kemKeygen seedA).2 =
        .error .authenticationFailure := by
  have hpkB : leVal (natToBytes seedB 1184) = seedB :=
    leVal_natToBytes seedB 1184
      (lt_pow256_of_lt_2pow _ 512 _ hsb (by norm_num))
  refine ⟨_, encryptData_ok p _ r nonce (natToBytes_length _ _) hp hn, ?_⟩
  unfold decryptData
  dsimp only [kemKeygen]
  rw [hpkB, decapsulate_wrong seedA seedB r hsa hsb hne hr]
  refine aesGcmDecrypt_tag_mismatch p _ nonce _ nonce (sha256Ideal_length _)
    hn (Or.inl ?_)
  exact key_ne_of_ss_headD_ne _ _ (mkReject_headD_ne_mkSS _ _ _ _)

/-- Witness for C3 at keypair seeds 1 and 2. -/
theorem C3_wrong_key_witness :
    ∃ env, encryptData [42] (kemKeygen 2).1 9 (List.replicate 12 0) =
        .ok env ∧
      decryptData env (kemKeygen 1).2 = .error .authenticationFailure :=
  C3_wrong_key [42] 1 2 9 (List.replicate 12 0)
    (by norm_num [MAX_DATA_SIZE]) (by norm_num) (by norm_num)
    (by norm_num) (by norm_num) (by simp)

/-- C4: `decapsulate` is a deterministic function of its two inputs, and
for a well-formed but wrong-owner secret key it returns a
pseudorandom-but-deterministic wrong 32-byte shared secret without raising
any error (implicit rejection; the explicit failure is surfaced only later
by the authenticated cipher). -/
theorem C4_decapsulate_implicit_rejection :
    (∀ ct1 ct2 sk1 sk2 : Bytes, ct1 = ct2 → sk1 = sk2 →
      decapsulate ct1 sk1 = decapsulate ct2 sk2) ∧
    (∀ seedA seedB r : Nat, seedA < 2 ^ 512 → seedB < 2 ^ 512 →
      seedA ≠ seedB → r < 2 ^ 256 →
      ∀ ss ek : Bytes, kemEncaps (kemKeygen seedB).1 r = .ok (ss, ek) →
        ∃ ss2 : Bytes, decapsulate ek (kemKeygen seedA).2 = .ok ss2 ∧
          ss2.length = 32 ∧ ss2 ≠ ss) := by
  constructor
  · intro ct1 ct2 sk1 sk2 h1 h2
    rw [h1, h2]
  · intro seedA seedB r hsa hsb hne hr ss ek henc
    have hpkB : leVal (natToBytes seedB 1184) = seedB :=
      leVal_natToBytes seedB 1184
        (lt_pow256_of_lt_2pow _ 512 _ hsb (by norm_num))
    simp only [kemKeygen] at henc ⊢
    rw [kemEncaps_ok _ r (natToBytes_length _ _)] at henc
    have hss : ss = mkSS (natToBytes seedB 1184) r := by
      have := Except.ok.inj henc
      exact (congrArg Prod.fst this).symm
    have hek : ek = natToBytes r 32 ++ natToBytes seedB 1056 := by
      have := Except.ok.inj henc
      have h2 := (congrArg Prod.snd this).symm
      rwa [hpkB] at h2
    refine ⟨mkReject (natToBytes seedA 2400)
      (natToBytes r 32 ++ natToBytes seedB 1056), ?_, ?_, ?_⟩
    · rw [hek]
      exact decapsulate_wrong seedA seedB r hsa hsb hne hr
    · simp [mkReject]
    · rw [hss]
      intro hc
      exact mkReject_headD_ne_mkSS _ _ _ _ (congrArg (fun l => l.headD 0) hc)

/-- Witness for C4 at keypair seeds 1 and 2 and encapsulation seed 9. -/
theorem C4_decapsulate_implicit_rejection_witness :
    decapsulate [] [] = decapsulate [] [] ∧
    ∀ ss ek : Bytes, kemEncaps (kemKeygen 2).1 9 = .ok (ss, ek) →
      ∃ ss2 : Bytes, decapsulate ek (kemKeygen 1).2 = .ok ss2 ∧
        ss2.length = 32 ∧ ss2 ≠ ss :=
  ⟨C4_decapsulate_implicit_rejection.1 [] [] [] [] rfl rfl,
   C4_decapsulate_implicit_rejection.2 1 2 9 (by norm_num) (by norm_num)
     (by norm_num) (by norm_num)⟩

theorem xor_two_pow_ne (a j : Nat) : a ^^^ 2 ^ j ≠ a := by
  intro h
  have h2 : a ^^^ (a ^^^ 2 ^ j) = a ^^^ a := congrArg (fun x => a ^^^ x) h
  rw [← Nat.xor_assoc, Nat.xor_self, Nat.zero_xor] at h2
  exact (Nat.pos_pow_of_pos j (by norm_num)).ne' h2

theorem flipBit_length (l : Bytes) (i j : Nat) :
    (flipBit l i j).length = l.length := by
  simp [flipBit]

theorem flipBit_ne (l : Bytes) (i j : Nat) (h : i < l.length) :
    flipBit l i j ≠ l := by
  intro hc
  have hg := congrArg (fun s : Bytes => s.getD i 0) hc
  simp only [flipBit] at hg
  rw [List.getD_eq_getElem _ 0 (by simpa [flipBit] using h),
    List.getElem_set_self, List.getD_eq_getElem _ 0 h] at hg
  have := xor_two_pow_ne (l.getD i 0) j
  rw [List.getD_eq_getElem _ 0 h] at this
  exact this hg

theorem flipBit_lt (l : Bytes) (i j : Nat) (hb : ∀ x ∈ l, x < 256)
    (hj : j < 8) : ∀ x ∈ flipBit l i j, x < 256 := by
  intro x hx
  rcases List.mem_or_eq_of_mem_set hx with hx | rfl
  · exact hb x hx
  · have hv : l.getD i 0 < 256 := by
      rcases Nat.lt_or_ge i l.length with hi | hi
      · rw [List.getD_eq_getElem _ 0 hi]
        exact hb _ (List.getElem_mem hi)
      · rw [List.getD_eq_default _ _ hi]
        norm_num
    have h2 : (2 : Nat) ^ j < 256 := by
      calc (2 : Nat) ^ j < 2 ^ 8 := Nat.pow_lt_pow_right (by norm_num) hj
        _ = 256 := by norm_num
    have hx2 := Nat.xor_lt_two_pow (n := 8) (x := l.getD i 0) (y := 2 ^ j)
      (by simpa using hv) (by simpa using h2)
    simpa using hx2

theorem flipBit_append_left (l1 l2 : Bytes) (i j : Nat) (h : i < l1.length) :
    flipBit (l1 ++ l2) i j = flipBit l1 i j ++ l2 := by
  have hg : (l1 ++ l2).getD i 0 = l1.getD i 0 := List.getD_append _ _ _ _ h
  show (l1 ++ l2).set i ((l1 ++ l2).getD i 0 ^^^ 2 ^ j) =
    l1.set i (l1.getD i 0 ^^^ 2 ^ j) ++ l2
  rw [hg, List.set_append, if_pos h]

theorem flipBit_append_right (l1 l2 : Bytes) (i j : Nat)
    (h : l1.length ≤ i) :
    flipBit (l1 ++ l2) i j = l1 ++ flipBit l2 (i - l1.length) j := by
  have hg : (l1 ++ l2).getD i 0 = l2.getD (i - l1.length) 0 :=
    List.getD_append_right _ _ _ _ h
  show (l1 ++ l2).set i ((l1 ++ l2).getD i 0 ^^^ 2 ^ j) =
    l1 ++ l2.set (i - l1.length) (l2.getD (i - l1.length) 0 ^^^ 2 ^ j)
  rw [hg, List.set_append, if_neg (Nat.not_lt.mpr h)]

theorem take_sub16 (A T : Bytes) (hT : T.length = 16) :
    (A ++ T).take ((A ++ T).length - 16) = A := by
  have h : (A ++ T).length - 16 = A.length := by
    rw [List.length_append, hT]; omega
  rw [h, List.take_left]

theorem drop_sub16 (A T : Bytes) (hT : T.length = 16) :
    (A ++ T).drop ((A ++ T).length - 16) = T := by
  have h : (A ++ T).length - 16 = A.length := by
    rw [List.length_append, hT]; omega
  rw [h, List.drop_left]

theorem aesGcmDecrypt_bad_tag (A T key nonce : Bytes) (hk : key.length = 32)
    (hn : nonce.length = 12) (hT : T.length = 16)
    (hne : T ≠ tagBytes key nonce (maskFrom key nonce 0 A)) :
    aesGcmDecrypt (A ++ T) key nonce = .error .authenticationFailure := by
  simp only [aesGcmDecrypt, hk, hn]
  rw [if_neg (by simp), if_neg (by simp), take_sub16 A T hT,
    drop_sub16 A T hT, if_neg]
  intro hc
  exact hne hc.1

theorem flipBit_maskFrom (key nonce p : Bytes) (i j : Nat)
    (hip : i < p.length) :
    flipBit (maskFrom key nonce 0 p) i j =
    maskFrom key nonce 0 (flipBit p i j) := by
  show (maskFrom key nonce 0 p).set i
      ((maskFrom key nonce 0 p).getD i 0 ^^^ 2 ^ j) =
    maskFrom key nonce 0 (p.set i (p.getD i 0 ^^^ 2 ^ j))
  rw [maskFrom_set, maskFrom_getD _ _ _ _ _ hip]
  congr 1
  rw [Nat.xor_assoc, Nat.xor_comm (ksByte key nonce (0 + i)) (2 ^ j),
    ← Nat.xor_assoc]

theorem aesGcmDecrypt_flip (key nonce p : Bytes) (hk : key.length = 32)
    (hn : nonce.length = 12) (hpb : ∀ x ∈ p, x < 256) (i j : Nat)
    (hi : i < p.length + 16) (hj : j < 8) :
    aesGcmDecrypt
      (flipBit (maskFrom key nonce 0 p ++ tagBytes key nonce p) i j)
      key nonce = .error .authenticationFailure := by
  rcases Nat.lt_or_ge i p.length with hip | hip
  · have hiA : i < (maskFrom key nonce 0 p).length := by
      rw [maskFrom_length]; exact hip
    rw [flipBit_append_left _ _ _ _ hiA, flipBit_maskFrom _ _ _ _ _ hip]
    refine aesGcmDecrypt_bad_tag _ _ _ _ hk hn (tagBytes_length _ _ _) ?_
    rw [maskFrom_maskFrom]
    intro hc
    have hh := congrArg (fun l : Bytes => l.headD 0) hc
    simp only [tagBytes, List.headD_cons] at hh
    obtain ⟨-, h2⟩ := Nat.pair_eq_pair.mp hh
    obtain ⟨-, h3⟩ := Nat.pair_eq_pair.mp h2
    obtain ⟨-, h4⟩ := Nat.pair_eq_pair.mp h3
    have hpe : p = flipBit p i j :=
      encB_inj p _ hpb (flipBit_lt p i j hpb hj) h4
    exact flipBit_ne p i j hip hpe.symm
  · have hiA : (maskFrom key nonce 0 p).length ≤ i := by
      rw [maskFrom_length]; exact hip
    rw [flipBit_append_right _ _ _ _ hiA]
    refine aesGcmDecrypt_bad_tag _ _ _ _ hk hn ?_ ?_
    · rw [flipBit_length, tagBytes_length]
    · rw [maskFrom_maskFrom]
      apply flipBit_ne
      rw [tagBytes_length, maskFrom_length]
      omega

theorem decapsulate_flip_r (seed r i j : Nat) (hs : seed < 2 ^ 512)
    (hi : i < 32) (hj : j < 8) :
    decapsulate (flipBit (natToBytes r 32 ++ natToBytes seed 1056) i j)
      (natToBytes seed 2400) =
    .ok (mkSS (natToBytes seed 1184)
      (leVal (flipBit (natToBytes r 32) i j))) ∧
    leVal (flipBit (natToBytes r 32) i j) ≠ r := by
  have hiR : i < (natToBytes r 32).length := by
    rw [natToBytes_length]; exact hi
  have hR : (flipBit (natToBytes r 32) i j).length = 32 := by
    rw [flipBit_length, natToBytes_length]
  have hRb : ∀ x ∈ flipBit (natToBytes r 32) i j, x < 256 :=
    flipBit_lt _ _ _ (natToBytes_lt r 32) hj
  have hback : natToBytes (leVal (flipBit (natToBytes r 32) i j)) 32 =
      flipBit (natToBytes r 32) i j := by
    have h := natToBytes_leVal _ hRb
    rwa [hR] at h
  have htake : (flipBit (natToBytes r 32) i j ++
      natToBytes seed 1056).take 32 = flipBit (natToBytes r 32) i j := by
    have h := List.take_left (flipBit (natToBytes r 32) i j)
      (natToBytes seed 1056)
    rwa [hR] at h
  rw [flipBit_append_left _ _ _ _ hiR]
  constructor
  · rw [decapsulate_eq _ _ (by simp [natToBytes_length, hR])
      (natToBytes_length _ _), htake,
      leVal_natToBytes seed 2400
        (lt_pow256_of_lt_2pow _ 512 _ hs (by norm_num)),
      leVal_natToBytes seed 1184
        (lt_pow256_of_lt_2pow _ 512 _ hs (by norm_num)),
      hback, if_pos rfl]
  · intro hc
    rw [hc] at hback
    exact flipBit_ne _ i j hiR hback.symm

theorem decapsulate_flip_filler (seed r i j : Nat) (hs : seed < 2 ^ 512)
    (hr : r < 2 ^ 256) (hi32 : 32 ≤ i) (hi : i < 1088) :
    decapsulate (flipBit (natToBytes r 32 ++ natToBytes seed 1056) i j)
      (natToBytes seed 2400) =
    .ok (mkReject (natToBytes seed 2400)
      (flipBit (natToBytes r 32 ++ natToBytes seed 1056) i j)) := by
  have hiR : (natToBytes r 32).length ≤ i := by
    rw [natToBytes_length]; exact hi32
  have hsplit := flipBit_append_right (natToBytes r 32)
    (natToBytes seed 1056) i j hiR
  rw [natToBytes_length] at hsplit
  rw [hsplit]
  have hF : (flipBit (natToBytes seed 1056) (i - 32) j).length = 1056 := by
    rw [flipBit_length, natToBytes_length]
  rw [decapsulate_eq _ _ (by simp [natToBytes_length, hF])
      (natToBytes_length _ _), take32_append,
    leVal_natToBytes r 32 (lt_pow256_of_lt_2pow _ 256 _ hr (by norm_num)),
    leVal_natToBytes seed 2400
      (lt_pow256_of_lt_2pow _ 512 _ hs (by norm_num)),
    leVal_natToBytes seed 1184
      (lt_pow256_of_lt_2pow _ 512 _ hs (by norm_num)),
    if_neg]
  intro hc
  have hF2 := (List.append_inj hc rfl).2
  have hne : flipBit (natToBytes seed 1056) (i - 32) j ≠
      natToBytes seed 1056 := by
    apply flipBit_ne
    rw [natToBytes_length]
    omega
  exact hne hF2

/-- C2: for every envelope produced by `encryptData` and every envelope
obtained from it by flipping any single bit of `ciphertext`,
`encapsulatedKey`, or `nonce` (bit `j < 8` of any byte position `i` at the
model's byte granularity), `decryptData` fails with an
`AuthenticationFailure` and never returns an altered plaintext. -/
theorem C2_tamper_detection (p : Bytes) (seed r : Nat) (nonce : Bytes)
    (hp : p.length ≤ MAX_DATA_SIZE) (hpb : ∀ x ∈ p, x < 256)
    (hs : seed < 2 ^ 512) (hr : r < 2 ^ 256)
    (hn : nonce.length = 12) (hnb : ∀ x ∈ nonce, x < 256) :
    ∀ env, encryptData p (kemKeygen seed).1 r nonce = .ok env →
      (∀ i j, i < env.ciphertext.length → j < 8 →
        decryptData ⟨flipBit env.ciphertext i j, env.encapsulatedKey,
          env.nonce⟩ (kemKeygen seed).2 = .error .authenticationFailure) ∧
      (∀ i j, i < env.encapsulatedKey.length → j < 8 →
        decryptData ⟨env.ciphertext, flipBit env.encapsulatedKey i j,
          env.nonce⟩ (kemKeygen seed).2 = .error .authenticationFailure) ∧
      (∀ i j, i < env.nonce.length → j < 8 →
        decryptData ⟨env.ciphertext, env.encapsulatedKey,
          flipBit env.nonce i j⟩ (kemKeygen seed).2 =
          .error .authenticationFailure) := by
  intro env henv
  have hpk : leVal (natToBytes seed 1184) = seed :=
    leVal_natToBytes seed 1184
      (lt_pow256_of_lt_2pow _ 512 _ hs (by norm_num))
  dsimp only [kemKeygen] at henv ⊢
  rw [encryptData_ok p _ r nonce (natToBytes_length _ _) hp hn] at henv
  have henv2 := Except.ok.inj henv
  subst henv2
  rw [hpk]
  refine ⟨?_, ?_, ?_⟩
  · intro i j hi hj
    unfold decryptData
    dsimp only
    rw [decapsulate_honest seed r hs hr]
    dsimp only
    refine aesGcmDecrypt_flip _ nonce p (sha256Ideal_length _) hn hpb i j
      ?_ hj
    rw [sealed_length] at hi
    exact hi
  · intro i j hi hj
    have hi2 : i < 1088 := by
      simpa [natToBytes_length] using hi
    unfold decryptData
    dsimp only
    rcases Nat.lt_or_ge i 32 with hi32 | hi32
    · rw [(decapsulate_flip_r seed r i j hs hi32 hj).1]
      dsimp only
      refine aesGcmDecrypt_tag_mismatch p _ nonce _ nonce
        (sha256Ideal_length _) hn (Or.inl ?_)
      refine key_ne_of_ss_headD_ne _ _ ?_
      simp only [ne_eq, Nat.pair_eq_pair]
      intro hc
      exact (decapsulate_flip_r seed r i j hs hi32 hj).2 hc.2.2
    · rw [decapsulate_flip_filler seed r i j hs hr hi32 hi2]
      dsimp only
      refine aesGcmDecrypt_tag_mismatch p _ nonce _ nonce
        (sha256Ideal_length _) hn (Or.inl ?_)
      exact key_ne_of_ss_headD_ne _ _ (mkReject_headD_ne_mkSS _ _ _ _)
  · intro i j hi hj
    have hi12 : i < nonce.length := hi
    unfold decryptData
    dsimp only
    rw [decapsulate_honest seed r hs hr]
    dsimp only
    refine aesGcmDecrypt_tag_mismatch p _ nonce _ _
      (sha256Ideal_length _) (by rw [flipBit_length]; exact hn)
      (Or.inr ?_)
    intro hc
    have := encB_inj _ _ (flipBit_lt _ _ _ hnb hj) hnb hc
    exact flipBit_ne nonce i j hi12 this

/-- Witness for C2: a concrete envelope with bit 0 of byte 0 of each field
flipped in turn. -/
theorem C2_tamper_detection_witness :
    ∃ env, encryptData [7] (kemKeygen 3).1 5 (List.replicate 12 0) =
        .ok env ∧
      decryptData ⟨flipBit env.ciphertext 0 0, env.encapsulatedKey,
        env.nonce⟩ (kemKeygen 3).2 = .error .authenticationFailure ∧
      decryptData ⟨env.ciphertext, flipBit env.encapsulatedKey 0 0,
        env.nonce⟩ (kemKeygen 3).2 = .error .authenticationFailure ∧
      decryptData ⟨env.ciphertext, env.encapsulatedKey,
        flipBit env.nonce 0 0⟩ (kemKeygen 3).2 =
        .error .authenticationFailure := by
  have henv : encryptData [7] (kemKeygen 3).1 5 (List.replicate 12 0) =
      .ok ⟨maskFrom (sha256Ideal (mkSS (natToBytes 3 1184) 5))
          (List.replicate 12 0) 0 [7] ++
        tagBytes (sha256Ideal (mkSS (natToBytes 3 1184) 5))
          (List.replicate 12 0) [7],
        natToBytes 5 32 ++ natToBytes (leVal (natToBytes 3 1184)) 1056,
        List.replicate 12 0⟩ := by
    dsimp only [kemKeygen]
    exact encryptData_ok [7] (natToBytes 3 1184) 5 (List.replicate 12 0)
      (natToBytes_length 3 1184) (by norm_num [MAX_DATA_SIZE]) (by simp)
  have hmain := C2_tamper_detection [7] 3 5 (List.replicate 12 0)
    (by norm_num [MAX_DATA_SIZE]) (by decide) (by norm_num) (by norm_num)
    (by simp) (by decide) _ henv
  refine ⟨_, henv, hmain.1 0 0 ?_ (by norm_num),
    hmain.2.1 0 0 ?_ (by norm_num), hmain.2.2 0 0 ?_ (by norm_num)⟩
  · dsimp only
    rw [sealed_length]
    norm_num
  · dsimp only
    simp [natToBytes_length]
  · dsimp only
    simp

theorem padStart2_byteToHexMin (b : Nat) :
    padStart2 (byteToHexMin b) =
    [hexDigitChar (b / 16), hexDigitChar (b % 16)] := by
  by_cases h : b < 16
  · have h1 : b / 16 = 0 := Nat.div_eq_of_lt h
    have h2 : b % 16 = b := Nat.mod_eq_of_lt h
    simp [byteToHexMin, padStart2, h, h1, h2]
    rfl
  · simp [byteToHexMin, padStart2, h]

theorem flatten_map_pairs_length (f g : Nat → Char) (l : Bytes) :
    ((l.map (fun b => [f b, g b])).flatten).length = 2 * l.length := by
  induction l with
  | nil => rfl
  | cons b t ih => simp [ih]; ring

theorem chunk4_cons4 (a b c d : Char) (t : List Char) :
    chunk4 (a :: b :: c :: d :: t) = [a, b, c, d] :: chunk4 t := rfl

theorem chunk4_ne_nil (l : List Char) (h : l ≠ []) : chunk4 l ≠ [] := by
  rcases l with _ | ⟨a, _ | ⟨b, _ | ⟨c, _ | ⟨d, t⟩⟩⟩⟩
  · exact absurd rfl h
  · exact List.cons_ne_nil _ _
  · exact List.cons_ne_nil _ _
  · exact List.cons_ne_nil _ _
  · exact List.cons_ne_nil _ _

theorem joinSpace_cons_ne (x : List Char) (xs : List (List Char))
    (h : xs ≠ []) : joinSpace (x :: xs) = x ++ ' ' :: joinSpace xs := by
  rcases xs with _ | ⟨y, ys⟩
  · exact absurd rfl h
  · rfl

theorem joinSpace_chunk4_length :
    ∀ (k : Nat) (l : List Char), l.length = 4 * k + 4 →
    (joinSpace (chunk4 l)).length = 5 * k + 4 := by
  intro k
  induction k with
  | zero =>
    intro l h
    match l, h with
    | [a, b, c, d], _ => rfl
  | succ n ih =>
    intro l h
    rcases l with _ | ⟨a, l⟩
    · simp at h
    rcases l with _ | ⟨b, l⟩
    · simp at h
    rcases l with _ | ⟨c, l⟩
    · simp at h
    rcases l with _ | ⟨d, t⟩
    · simp at h
    have ht : t.length = 4 * n + 4 := by
      simp only [List.length_cons] at h
      omega
    have htne : t ≠ [] := by
      intro hc
      subst hc
      simp only [List.length_nil] at ht
      omega
    rw [chunk4_cons4, joinSpace_cons_ne _ _ (chunk4_ne_nil t htne)]
    have hrec := ih t ht
    simp only [List.length_append, List.length_cons, List.length_nil, hrec]
    omega

/-- C7: `getKeyFingerprint` renders the SHA-256 digest of the key,
truncated to its first 16 bytes, as lowercase hexadecimal grouped into
4-character blocks separated by single spaces (8 blocks, a 39-character
string), exactly as the spec words it; determinism is immediate since the
embedding is a pure function of the key. -/
theorem C7_fingerprint (pk : Bytes) :
    getKeyFingerprint pk = fingerprintSpec pk ∧
    (getKeyFingerprint pk).length = 39 := by
  have hmap : (fun b => padStart2 (byteToHexMin b)) =
      (fun b : Nat => [hexDigitChar (b / 16), hexDigitChar (b % 16)]) :=
    funext padStart2_byteToHexMin
  constructor
  · unfold getKeyFingerprint fingerprintSpec
    rw [hmap]
  · show (joinSpace (chunk4
      ((((sha256BytesModel pk).take 16).map
        (fun b => padStart2 (byteToHexMin b))).flatten))).length = 39
    rw [hmap]
    have hdig : ((sha256BytesModel pk).take 16).length = 16 := by
      simp [sha256BytesModel, natToBytes_length]
    have hlen : ((((sha256BytesModel pk).take 16).map
        (fun b : Nat => [hexDigitChar (b / 16),
          hexDigitChar (b % 16)])).flatten).length = 32 := by
      rw [flatten_map_pairs_length, hdig]
    have hfin := joinSpace_chunk4_length 7 _ (by rw [hlen])
    simpa using hfin

theorem isB64Char_b64Char : ∀ n, n < 64 → isB64Char (b64Char n) = true := by
  decide

theorem isB64Char_pad : isB64Char '=' = false := by decide

theorem b64Val_b64Char : ∀ n, n < 64 → b64Val (b64Char n) = n := by decide

theorem decodeSextets_filter_encode : ∀ l : Bytes, (∀ x ∈ l, x < 256) →
    decodeSextets (((encodeBase64Chars l).filter
      (fun c => isB64Char c)).map b64Val) = l := by
  intro l
  induction l using encodeBase64Chars.induct with
  | case1 => intro _; rfl
  | case2 a =>
    intro h
    have ha : a < 256 := h a (by simp)
    have h1 : a / 4 < 64 := by omega
    have h2 : a % 4 * 16 < 64 := by omega
    simp [encodeBase64Chars, List.filter_cons, isB64Char_b64Char _ h1,
      isB64Char_b64Char _ h2, isB64Char_pad, b64Val_b64Char _ h1,
      b64Val_b64Char _ h2, decodeSextets]
    omega
  | case3 a b =>
    intro h
    have ha : a < 256 := h a (by simp)
    have hb : b < 256 := h b (by simp)
    have h1 : a / 4 < 64 := by omega
    have h2 : a % 4 * 16 + b / 16 < 64 := by omega
    have h3 : b % 16 * 4 < 64 := by omega
    simp [encodeBase64Chars, List.filter_cons, isB64Char_b64Char _ h1,
      isB64Char_b64Char _ h2, isB64Char_b64Char _ h3, isB64Char_pad,
      b64Val_b64Char _ h1, b64Val_b64Char _ h2, b64Val_b64Char _ h3,
      decodeSextets]
    omega
  | case4 a b c t ih =>
    intro h
    have ha : a < 256 := h a (by simp)
    have hb : b < 256 := h b (by simp)
    have hc : c < 256 := h c (by simp)
    have ht : ∀ x ∈ t, x < 256 := fun x hx =>
      h x (by simp [List.mem_cons, hx])
    have h1 : a / 4 < 64 := by omega
    have h2 : a % 4 * 16 + b / 16 < 64 := by omega
    have h3 : b % 16 * 4 + c / 64 < 64 := by omega
    have h4 : c % 64 < 64 := by omega
    simp [encodeBase64Chars, List.filter_cons, isB64Char_b64Char _ h1,
      isB64Char_b64Char _ h2, isB64Char_b64Char _ h3,
      isB64Char_b64Char _ h4, b64Val_b64Char _ h1, b64Val_b64Char _ h2,
      b64Val_b64Char _ h3, b64Val_b64Char _ h4, decodeSextets, ih ht]
    omega

/-- C10: `decodeBase64` is a left inverse of `encodeBase64` on byte
strings, and is total — it returns a byte string for every input string
without raising an error (the model's return type is `Bytes`, not an
error monad, mirroring Node's lenient `Buffer.from(s, 'base64')`). -/
theorem C10_base64_roundtrip_total :
    (∀ l : Bytes, (∀ x ∈ l, x < 256) →
      decodeBase64 (encodeBase64 l) = l) ∧
    (∀ s : String, ∃ b : Bytes, decodeBase64 s = b) := by
  constructor
  · intro l h
    exact decodeSextets_filter_encode l h
  · intro s
    exact ⟨_, rfl⟩

/-- Witness for C10 at a concrete byte string. -/
theorem C10_base64_roundtrip_witness :
    decodeBase64 (encodeBase64 [0, 255, 100, 7]) = [0, 255, 100, 7] :=
  C10_base64_roundtrip_total.1 [0, 255, 100, 7] (by decide)

theorem decapsulate_error_shape (ct sk : Bytes) (e : CryptoError)
    (h : decapsulate ct sk = .error e) : e = .malformedKey := by
  by_cases h1 : ct.length = 1088
  · by_cases h2 : sk.length = 2400
    · rw [decapsulate_eq ct sk h1 h2] at h
      split_ifs at h
    · unfold decapsulate at h
      rw [if_neg (not_not_intro h1), if_pos h2] at h
      exact (Except.error.inj h).symm
  · unfold decapsulate at h
    rw [if_pos h1] at h
    exact (Except.error.inj h).symm

theorem decryptData_ne_malformedEnvelope (enc : EncryptedData)
    (sk : Bytes) : decryptData enc sk ≠ .error .malformedEnvelope := by
  unfold decryptData
  rcases hdec : decapsulate enc.encapsulatedKey sk with e | ss
  · have he := decapsulate_error_shape _ _ _ hdec
    dsimp only
    simp [he]
  · dsimp only
    unfold aesGcmDecrypt
    split_ifs <;> try simp
    split <;> simp

/-- C8 counterexample: with a present (non-empty) secret key `"AA=="`,
the stored field `"!!!!"` is not valid base64, yet `decodeBase64` does
not reject it (Node's lenient decoder skips the invalid characters and
yields an empty byte string), and the decrypt route feeds the decoded
bytes straight into the cipher layer, which reports a `MalformedKeyError`
from decapsulation — not the `MalformedEnvelopeError` the claim
requires. -/
theorem C8_counterexample :
    decodeBase64 "!!!!" = [] ∧
    decryptMessageRoute ⟨"!!!!", "", ""⟩ "AA==" =
      .error (.decryptFailed .malformedKey) ∧
    RouteError.decryptFailed .malformedKey ≠
      RouteError.decryptFailed .malformedEnvelope := by
  refine ⟨rfl, rfl, by decide⟩

/-- C8 amended: the decrypt route never surfaces a
`MalformedEnvelopeError`: apart from the pre-decode 400 for a missing
secret key, `decodeBase64` is total and lenient (invalid characters are
skipped, no length check), so the decoded bytes always reach the cipher
layer, whose own failures (`MalformedKeyError`, `InvalidParameterError`,
`AuthenticationFailure`) are the only errors the endpoint can produce. -/
theorem C8_no_malformed_envelope_error (msg : StoredMessage)
    (skB64 : String) :
    decryptMessageRoute msg skB64 ≠
      .error (.decryptFailed .malformedEnvelope) := by
  unfold decryptMessageRoute
  by_cases hs : skB64 = ""
  · simp [hs]
  · rw [if_neg hs]
    rcases hd : decryptData
      ⟨decodeBase64 msg.encryptedContent,
       decodeBase64 msg.encapsulatedKey,
       decodeBase64 msg.nonce⟩
      (decodeBase64 skB64) with e | p
    · have hne := decryptData_ne_malformedEnvelope
        ⟨decodeBase64 msg.encryptedContent,
         decodeBase64 msg.encapsulatedKey,
         decodeBase64 msg.nonce⟩
        (decodeBase64 skB64)
      rw [hd] at hne
      intro hc
      have he : e = CryptoError.malformedEnvelope := by
        simpa using hc
      exact hne (by rw [he])
    · simp

theorem roomMemberRec_filterMap (senderId : String)
    (pubKeyOf : String → Option Bytes) (content : Bytes)
    (rand : Option String → Nat × Bytes) :
    ∀ members : List String, (∀ m ∈ members, (pubKeyOf m).isSome) →
    members.filterMap (roomMemberRec senderId pubKeyOf content rand) =
    (members.filter (fun m => m ≠ senderId)).map (fun m =>
      { recipientId := some m,
        env := encryptData content ((pubKeyOf m).getD [])
          (rand (some m)).1 (rand (some m)).2 }) := by
  intro members
  induction members with
  | nil => intro _; rfl
  | cons m t ih =>
    intro h
    have hm := h m (by simp)
    have ht : ∀ x ∈ t, (pubKeyOf x).isSome := fun x hx =>
      h x (by simp [hx])
    by_cases hms : m = senderId
    · simp [List.filterMap_cons, List.filter_cons, roomMemberRec, hms,
        ih ht]
    · obtain ⟨k, hk⟩ := Option.isSome_iff_exists.mp hm
      simp [List.filterMap_cons, List.filter_cons, roomMemberRec, hms, hk,
        ih ht]

theorem length_filter_ne (s : String) : ∀ l : List String, s ∈ l →
    l.Nodup → 1 + (l.filter (fun m => m ≠ s)).length = l.length := by
  intro l
  induction l with
  | nil => intro h _; simp at h
  | cons m t ih =>
    intro hmem hnd
    simp only [ne_eq, decide_not] at ih ⊢
    rcases List.mem_cons.mp hmem with rfl | hmt
    · have hst : s ∉ t := (List.nodup_cons.mp hnd).1
      have hfe : List.filter (fun x => !decide (x = s)) t = t := by
        rw [List.filter_eq_self]
        intro x hx
        simp only [Bool.not_eq_eq_eq_not, Bool.not_true,
          decide_eq_false_iff_not]
        rintro rfl
        exact hst hx
      rw [List.filter_cons, show (!decide (s = s)) = false by simp,
        if_neg (by simp), hfe]
      simp only [List.length_cons]
      omega
    · have hms : m ≠ s := by
        rintro rfl
        exact (List.nodup_cons.mp hnd).1 hmt
      have hrec := ih hmt (List.nodup_cons.mp hnd).2
      rw [List.filter_cons, show (!decide (m = s)) = true by simp [hms],
        if_pos rfl]
      simp only [List.length_cons]
      omega

/-- C9 counterexample: a room with the two members `"a"` (the sender) and
`"b"`, where `"b"` has no stored public key, produces 1 envelope — not
N = 2 as the claim requires; the keyless member is skipped with a
warning. -/
theorem C9_counterexample :
    (roomMessagesToCreate "a" ["a", "b"]
      (fun s => if s = "a" then some (natToBytes 0 1184) else none)
      [5] (fun _ => (0, List.replicate 12 0))).map List.length =
      some 1 ∧ (1 : Nat) ≠ 2 :=
  ⟨rfl, by decide⟩

/-- C9 amended: for a message sent to a room whose N members are distinct,
include the sender, and all have stored public keys, the system creates
exactly N envelopes: one self-addressed envelope encrypted under the
sender's own public key and N-1 envelopes each encrypted under a distinct
other member's public key; a member without a stored public key is
skipped, so only the members with keys receive envelopes. -/
theorem C9_room_fanout (senderId : String) (members : List String)
    (pubKeyOf : String → Option Bytes) (content : Bytes)
    (rand : Option String → Nat × Bytes)
    (hmem : senderId ∈ members) (hnd : members.Nodup)
    (hall : ∀ m ∈ members, (pubKeyOf m).isSome) :
    ∃ spk, pubKeyOf senderId = some spk ∧
      roomMessagesToCreate senderId members pubKeyOf content rand =
        some ({ recipientId := none,
                env := encryptData content spk (rand none).1
                  (rand none).2 } ::
          (members.filter (fun m => m ≠ senderId)).map (fun m =>
            { recipientId := some m,
              env := encryptData content ((pubKeyOf m).getD [])
                (rand (some m)).1 (rand (some m)).2 })) ∧
      1 + (members.filter (fun m => m ≠ senderId)).length =
        members.length := by
  obtain ⟨spk, hspk⟩ := Option.isSome_iff_exists.mp (hall senderId hmem)
  refine ⟨spk, hspk, ?_, length_filter_ne senderId members hmem hnd⟩
  unfold roomMessagesToCreate
  have hne : members ≠ [] := List.ne_nil_of_mem hmem
  rw [if_neg (by simp [hne]), hspk]
  dsimp only
  rw [roomMemberRec_filterMap senderId pubKeyOf content rand members hall]

/-- Witness for the amended C9 at a concrete two-member room where both
members have keys: 2 envelopes. -/
theorem C9_room_fanout_witness :
    ∃ spk, (fun _ : String => some (natToBytes 0 1184)) "a" = some spk ∧
      roomMessagesToCreate "a" ["a", "b"]
          (fun _ => some (natToBytes 0 1184)) [5]
          (fun _ => (0, List.replicate 12 0)) =
        some ({ recipientId := none,
                env := encryptData [5] spk 0 (List.replicate 12 0) } ::
          ((["a", "b"].filter (fun m => m ≠ "a")).map (fun m =>
            { recipientId := some m,
              env := encryptData [5]
                ((some (natToBytes 0 1184)).getD [])
                0 (List.replicate 12 0) }))) ∧
      1 + ((["a", "b"].filter (fun m => m ≠ "a")).length) =
        (["a", "b"] : List String).length :=
  C9_room_fanout "a" ["a", "b"] (fun _ => some (natToBytes 0 1184)) [5]
    (fun _ => (0, List.replicate 12 0)) (by decide) (by decide)
    (fun m _ => rfl)
